import Mathlib

/-!
Verification of the bit-level reader (`src/read.rs`) of the `endio_bit`
library: a `BitReader` wraps a byte source, keeps a sub-byte cursor
(`bit_offset`) and a one-byte lookahead buffer (`bit_buffer`), and reads
single bits, runs of up to 8 bits, and shifted byte streams under either
a big-endian or little-endian bit-numbering convention.

Bytes are modelled as `Nat` (reduced mod 256 where the machine `u8`
arithmetic wraps), the byte source as a list of pull results (a byte, or
an I/O error), and fallible operations return an explicit result value
together with the post-state, mirroring Rust's in-place mutation with
`?`-propagation of errors and `assert!` panics.
-/

/-- Bit-endianness convention tag: `be` reads most significant bits first,
`le` reads least significant bits first. Mirrors the `BE`/`LE` policy types. -/
inductive Endian where
  | be : Endian
  | le : Endian
deriving DecidableEq, Repr

/-- Modelled from the spec: the `BitEndianness::shift_msb` primitive of the
endian module (not under `src/`). Spec 4.1: big-endian shifts the byte left
by `n`, masking bits that fall off the 8-bit word; little-endian is the
exact mirror (a right shift). Validated against the `read.rs` doctests. -/
def shift_msb : Endian → Nat → Nat → Nat
  | .be, v, n => (v * 2 ^ n) % 256
  | .le, v, n => v / 2 ^ n

/-- Modelled from the spec: the `BitEndianness::shift_lsb` primitive of the
endian module (not under `src/`). Spec 4.1: the complementary mirror-image
shift of `shift_msb` — a right shift for big-endian, a masked left shift
for little-endian. Validated against the `read.rs` doctests. -/
def shift_lsb : Endian → Nat → Nat → Nat
  | .be, v, n => v / 2 ^ n
  | .le, v, n => (v * 2 ^ n) % 256

/-- Modelled from the spec: the `BitEndianness::align_right` primitive of the
endian module (not under `src/`). Spec 4.1/4.2: normalizes a `count`-bit
result into the low-order `count` bits — for big-endian the extraction's
`shift_lsb (8 - count)` already did this, so it is the identity; for
little-endian it is the final right shift by `8 - count`.
Validated against the `read.rs` doctests. -/
def align_right : Endian → Nat → Nat → Nat
  | .be, v, _ => v
  | .le, v, c => v / 2 ^ (8 - c)

/-- One pull result of the underlying byte source: a data byte, or an I/O
error carrying an arbitrary error code. -/
inductive SrcItem where
  | byte : Nat → SrcItem
  | ioerr : Nat → SrcItem
deriving DecidableEq, Repr

/-- Errors surfaced by read operations: end of input during an exact fill,
or an underlying I/O error (identified by its code), matching
`std::io::Error` propagation via `?`. -/
inductive IOErr where
  | eof : IOErr
  | other : Nat → IOErr
deriving DecidableEq, Repr

/-- Outcome of a fallible `BitReader` operation: a value, a propagated I/O
error, or a panic (`assert!` failure — a contract violation, distinct from
any recoverable error). -/
inductive PResult (α : Type) where
  | ok : α → PResult α
  | err : IOErr → PResult α
  | panic : PResult α
deriving DecidableEq, Repr

/-- The `BitReader` state from `src/read.rs`: the wrapped byte source
(`inner`), the offset of remaining bits in a byte (`bit_offset`, intended
range `[0, 8)`), and storage for remaining bits after an unaligned read
(`bit_buffer`). -/
structure BitReader where
  inner : List SrcItem
  bit_offset : Nat
  bit_buffer : Nat
deriving DecidableEq, Repr

/-- Rust `BitReader::new`: wrap a source; `bit_offset` and `bit_buffer` start 0. -/
def BitReader.new (inner : List SrcItem) : BitReader :=
  { inner := inner, bit_offset := 0, bit_buffer := 0 }

/-- Rust `BitReader::is_aligned`: true iff `bit_offset == 0`. -/
def BitReader.is_aligned (s : BitReader) : Bool :=
  s.bit_offset == 0

/-- Rust `BitReader::align`: reset `bit_offset` to 0 and clear `bit_buffer`. -/
def BitReader.align (s : BitReader) : BitReader :=
  { s with bit_offset := 0, bit_buffer := 0 }

/-- Rust `BitReader::get_mut`: the checked mutable borrow of the source —
`assert!(self.is_aligned())`, so it panics when unaligned and otherwise
yields the inner source. -/
def BitReader.get_mut (s : BitReader) : PResult (List SrcItem) :=
  if s.bit_offset = 0 then .ok s.inner else .panic

/-- Rust `BitReader::fill_buffer`: `read_exact` of one byte from the source into
`bit_buffer`. An empty source is a short read (`eof`); an erroring source
propagates its error; in both failure cases `bit_buffer` and `bit_offset`
are untouched (the fetch happens before the buffer store). -/
def BitReader.fill_buffer (s : BitReader) : PResult Unit × BitReader :=
  match s.inner with
  | [] => (.err .eof, s)
  | .ioerr c :: rest => (.err (.other c), { s with inner := rest })
  | .byte b :: rest =>
      (.ok (), { inner := rest, bit_offset := s.bit_offset, bit_buffer := b })

/-- Rust `BitReader::read_bit`: fill the buffer when aligned, test the bit of
`bit_buffer` selected by the mask `shift_lsb (shift_msb 0xff 7) bit_offset`,
and advance `bit_offset` by one, mod 8. -/
def BitReader.read_bit (e : Endian) (s : BitReader) : PResult Bool × BitReader :=
  match (if s.bit_offset = 0 then s.fill_buffer else (.ok (), s)) with
  | (.ok _, s1) =>
      let val := (s1.bit_buffer &&& shift_lsb e (shift_msb e 255 7) s1.bit_offset) != 0
      (.ok val, { s1 with bit_offset := (s1.bit_offset + 1) % 8 })
  | (.err er, s1) => (.err er, s1)
  | (.panic, s1) => (.panic, s1)

/-- Rust `BitReader::read_bits`: `assert!(count <= 8)`; fill when aligned; take
the bits from `bit_offset` with `shift_msb`; when the span crosses a byte
boundary, fill again and OR in the leading bits of the new byte via
`shift_lsb (8 - start)`; normalize with `shift_lsb (8 - count)` and
`align_right`; set `bit_offset` to `(start + count) % 8`. -/
def BitReader.read_bits (e : Endian) (count : Nat) (s : BitReader) :
    PResult Nat × BitReader :=
  if count > 8 then (.panic, s) else
  match (if s.bit_offset = 0 then s.fill_buffer else (.ok (), s)) with
  | (.ok _, s1) =>
      let start := s1.bit_offset
      let res := shift_msb e s1.bit_buffer start
      if start + count > 8 then
        match s1.fill_buffer with
        | (.ok _, s2) =>
            let res2 := res ||| shift_lsb e s2.bit_buffer (8 - start)
            let res3 := align_right e (shift_lsb e res2 (8 - count)) count
            (.ok res3, { s2 with bit_offset := (start + count) % 8 })
        | (.err er, s2) => (.err er, s2)
        | (.panic, s2) => (.panic, s2)
      else
        let res3 := align_right e (shift_lsb e res (8 - count)) count
        (.ok res3, { s1 with bit_offset := (start + count) % 8 })
  | (.err er, s1) => (.err er, s1)
  | (.panic, s1) => (.panic, s1)

/-- One call of `R::read` on the modelled source with room for `n` bytes:
returns the run of data bytes available up to `n` (a short read is valid);
an I/O error at the very front is returned as an error (consuming it); an
error after at least one byte stops the run early and is left for the next
call, matching a `Read` implementation that never mixes data and errors in
one call. -/
def inner_read : Nat → List SrcItem → PResult (List Nat) × List SrcItem
  | 0, src => (.ok [], src)
  | _ + 1, [] => (.ok [], [])
  | _ + 1, .ioerr c :: rest => (.err (.other c), rest)
  | n + 1, .byte b :: rest =>
      match inner_read n rest with
      | (.ok bs, r) => (.ok (b :: bs), r)
      | _ => (.ok [b], rest)

/-- The shifting loop of `<BitReader as Read>::read`: starting from
`last = bit_buffer`, replace each byte `cur` of the buffer with
`shift_msb last off ||| shift_lsb cur (8 - off)` and advance `last` to the
original `cur`; returns the rewritten buffer and the final `last`. -/
def shift_fold (e : Endian) (off : Nat) (last : Nat) :
    List Nat → List Nat × Nat
  | [] => ([], last)
  | b :: rest =>
      ((shift_msb e last off ||| shift_lsb e b (8 - off)) ::
        (shift_fold e off b rest).1,
       (shift_fold e off b rest).2)

/-- Rust `<BitReader as Read>::read`: delegate to the source's bulk read into the
caller's buffer, then — only when unaligned — run the shifting loop over the
whole buffer and store the loop's final `last` byte into `bit_buffer`.
Returns the byte count, the caller's buffer after the call, and the
post-state. -/
def BitReader.bulk_read (e : Endian) (s : BitReader) (buf : List Nat) :
    PResult Nat × List Nat × BitReader :=
  match inner_read buf.length s.inner with
  | (.err er, rest) => (.err er, buf, { s with inner := rest })
  | (.panic, rest) => (.panic, buf, { s with inner := rest })
  | (.ok bytes, rest) =>
      let buf1 := bytes ++ buf.drop bytes.length
      let s1 : BitReader := { s with inner := rest }
      if s1.bit_offset = 0 then (.ok bytes.length, buf1, s1)
      else
        let (processed, last) := shift_fold e s1.bit_offset s1.bit_buffer buf1
        (.ok bytes.length, processed, { s1 with bit_buffer := last })

/-- The bit of `b` that `read_bit` tests at offset `i`: `b` masked with
`shift_lsb (shift_msb 0xff 7) i`, compared against zero. -/
def bitAt (e : Endian) (b i : Nat) : Bool :=
  (b &&& shift_lsb e (shift_msb e 255 7) i) != 0

/-- The eight bits of byte `b` in the order `read_bit` yields them under
convention `e` (offsets 0 through 7). -/
def bitsOf (e : Endian) (b : Nat) : List Bool :=
  [bitAt e b 0, bitAt e b 1, bitAt e b 2, bitAt e b 3,
   bitAt e b 4, bitAt e b 5, bitAt e b 6, bitAt e b 7]

/-- Reassemble one byte from eight bits listed in read order under
convention `e`: the first bit read is the most significant bit for `be`
and the least significant bit for `le`. -/
def assemble_byte (e : Endian) (bs : List Bool) : Nat :=
  match e with
  | .be => bs.foldl (fun acc b => acc * 2 + (if b then 1 else 0)) 0
  | .le => bs.foldr (fun b acc => acc * 2 + (if b then 1 else 0)) 0

/-- Reassemble a byte sequence from a bit sequence in read order, eight
bits per byte, under convention `e`. -/
def assemble (e : Endian) : List Bool → List Nat
  | b0 :: b1 :: b2 :: b3 :: b4 :: b5 :: b6 :: b7 :: rest =>
      assemble_byte e [b0, b1, b2, b3, b4, b5, b6, b7] :: assemble e rest
  | _ => []

/-- Perform `n` successive `read_bit` calls, collecting the bits in order;
stops at (and propagates) the first error. -/
def read_n_bits (e : Endian) : Nat → BitReader → PResult (List Bool) × BitReader
  | 0, s => (.ok [], s)
  | n + 1, s =>
      match BitReader.read_bit e s with
      | (.ok b, s1) =>
          match read_n_bits e n s1 with
          | (.ok bs, s2) => (.ok (b :: bs), s2)
          | (.err er, s2) => (.err er, s2)
          | (.panic, s2) => (.panic, s2)
      | (.err er, s1) => (.err er, s1)
      | (.panic, s1) => (.panic, s1)

/-- Structural invariant documented on the `bit_offset` field:
`0 <= bit_offset < 8` (the lower bound is inherent to `Nat`). -/
abbrev BitReader.WF (s : BitReader) : Prop :=
  s.bit_offset < 8

/-- Helper: the bulk read never touches `bit_offset`, in any branch. -/
lemma bulk_read_bit_offset (e : Endian) (s : BitReader) (buf : List Nat) :
    (BitReader.bulk_read e s buf).2.2.bit_offset = s.bit_offset := by
  unfold BitReader.bulk_read
  rcases h : inner_read buf.length s.inner with ⟨r, rest⟩
  cases r with
  | ok bytes =>
      dsimp only
      by_cases h0 : s.bit_offset = 0
      · rw [if_pos h0]
      · rw [if_neg h0]
  | err er => rfl
  | panic => rfl

/-- Claim C9: `align` performs no I/O (the inner source is untouched), sets
`bit_offset` to 0 and clears `bit_buffer`; it is idempotent; and afterwards
`is_aligned` returns true, from every starting state. -/
theorem claim_C9 (s : BitReader) :
    s.align.inner = s.inner ∧ s.align.bit_offset = 0 ∧ s.align.bit_buffer = 0 ∧
    s.align.align = s.align ∧ s.align.is_aligned = true :=
  ⟨rfl, rfl, rfl, rfl, rfl⟩

/-- Claim C8: the bulk read operation never changes `bit_offset`: for every
reader state (aligned or unaligned) and every buffer, `bit_offset` after the
call equals `bit_offset` before the call. -/
theorem claim_C8 (e : Endian) (s : BitReader) (buf : List Nat) :
    (BitReader.bulk_read e s buf).2.2.bit_offset = s.bit_offset :=
  bulk_read_bit_offset e s buf

/-- Claim C2: on source bytes `0xab 0xcd` from a fresh reader, big-endian
`read_bits 4` returns `0x0a` and the following `read_bits 8` returns `0xbc`;
little-endian `read_bits 4` returns `0x0b` and the following `read_bits 8`
returns `0xda`. -/
theorem claim_C2 :
    BitReader.read_bits .be 4 (BitReader.new [.byte 0xab, .byte 0xcd]) =
      (.ok 0x0a, ⟨[.byte 0xcd], 4, 0xab⟩) ∧
    (BitReader.read_bits .be 8 ⟨[.byte 0xcd], 4, 0xab⟩).1 = .ok 0xbc ∧
    BitReader.read_bits .le 4 (BitReader.new [.byte 0xab, .byte 0xcd]) =
      (.ok 0x0b, ⟨[.byte 0xcd], 4, 0xab⟩) ∧
    (BitReader.read_bits .le 8 ⟨[.byte 0xcd], 4, 0xab⟩).1 = .ok 0xda := by
  decide

/-- Claim C6: `read_bits` with `count > 8` panics (leaving the state as it
was), and `get_mut` on an unaligned reader panics, for every reader state,
source content and endianness — a fail-fast contract violation, not a
recoverable error. -/
theorem claim_C6 (e : Endian) (count : Nat) (s t : BitReader)
    (hc : count > 8) (ht : t.bit_offset ≠ 0) :
    BitReader.read_bits e count s = (.panic, s) ∧ t.get_mut = .panic := by
  constructor
  · unfold BitReader.read_bits
    rw [if_pos hc]
  · unfold BitReader.get_mut
    rw [if_neg ht]

/-- Witness for C6 at `count = 9` and an unaligned reader. -/
theorem claim_C6_witness :
    (9 > 8 ∧ (⟨[], 4, 0⟩ : BitReader).bit_offset ≠ 0) ∧
    BitReader.read_bits .be 9 (BitReader.new []) = (.panic, BitReader.new []) ∧
    BitReader.get_mut ⟨[], 4, 0⟩ = .panic :=
  ⟨⟨by decide, by decide⟩,
   claim_C6 .be 9 (BitReader.new []) ⟨[], 4, 0⟩ (by decide) (by decide)⟩

/-- Counterexample to C3 as stated: from an aligned reader, `read_bits 0`
does perform I/O — on an empty source it returns an EOF error instead of
`Ok(0)`, and on a one-byte source it consumes that byte and changes the
reader state. -/
theorem claim_C3_cex :
    BitReader.read_bits .be 0 (BitReader.new []) = (.err .eof, BitReader.new []) ∧
    (PResult.err .eof : PResult Nat) ≠ .ok 0 ∧
    BitReader.read_bits .be 0 (BitReader.new [.byte 5]) = (.ok 0, ⟨[], 0, 5⟩) ∧
    (⟨[], 0, 5⟩ : BitReader) ≠ BitReader.new [.byte 5] := by
  decide

/-- Claim C3 (amended): for every unaligned reader (with `bit_offset` in its
documented range), `read_bits 0` returns `Ok(0)`, performs no I/O, and
leaves the reader state unchanged; an aligned reader instead first performs
the one-byte fill, consuming a byte (or failing). -/
theorem claim_C3 (e : Endian) (s : BitReader)
    (h0 : s.bit_offset ≠ 0) (h8 : s.bit_offset < 8) :
    BitReader.read_bits e 0 s = (.ok 0, s) := by
  unfold BitReader.read_bits
  rw [if_neg (by omega : ¬ (0:Nat) > 8), if_neg h0]
  dsimp only
  rw [if_neg (by omega : ¬ s.bit_offset + 0 > 8)]
  have hmod : (s.bit_offset + 0) % 8 = s.bit_offset := by omega
  rw [hmod]
  have hres : align_right e (shift_lsb e (shift_msb e s.bit_buffer s.bit_offset) (8 - 0)) 0 = 0 := by
    cases e with
    | be =>
        show ((s.bit_buffer * 2 ^ s.bit_offset) % 256) / 2 ^ 8 = 0
        exact Nat.div_eq_of_lt (Nat.mod_lt _ (by norm_num))
    | le =>
        show ((s.bit_buffer / 2 ^ s.bit_offset * 2 ^ 8) % 256) / 2 ^ (8 - 0) = 0
        rw [show (2:Nat) ^ 8 = 256 from rfl, Nat.mul_mod_left]
  rw [hres]

/-- Witness for the amended C3 at an unaligned reader. -/
theorem claim_C3_witness :
    ((⟨[], 3, 171⟩ : BitReader).bit_offset ≠ 0 ∧
      (⟨[], 3, 171⟩ : BitReader).bit_offset < 8) ∧
    BitReader.read_bits .be 0 ⟨[], 3, 171⟩ = (.ok 0, ⟨[], 3, 171⟩) :=
  ⟨⟨by decide, by decide⟩, claim_C3 .be ⟨[], 3, 171⟩ (by decide) (by decide)⟩

/-- Claim C5: `read_bit` fetches exactly one byte from the source when and
only when the reader is aligned (propagating EOF or an I/O error of that
fetch), tests the bit of `bit_buffer` selected by the mask
`shift_lsb (shift_msb 0xff 7) bit_offset`, advances `bit_offset` to
`(bit_offset + 1) % 8`, and returns true iff the masked bit is set. -/
theorem claim_C5 (e : Endian) (s : BitReader) :
    (s.bit_offset ≠ 0 →
      BitReader.read_bit e s =
        (.ok ((s.bit_buffer &&& shift_lsb e (shift_msb e 255 7) s.bit_offset) != 0),
         ⟨s.inner, (s.bit_offset + 1) % 8, s.bit_buffer⟩)) ∧
    (∀ b rest, s.bit_offset = 0 → s.inner = .byte b :: rest →
      BitReader.read_bit e s =
        (.ok ((b &&& shift_lsb e (shift_msb e 255 7) 0) != 0), ⟨rest, 1, b⟩)) ∧
    (s.bit_offset = 0 → s.inner = [] →
      BitReader.read_bit e s = (.err .eof, s)) ∧
    (∀ c rest, s.bit_offset = 0 → s.inner = .ioerr c :: rest →
      BitReader.read_bit e s = (.err (.other c), ⟨rest, 0, s.bit_buffer⟩)) := by
  obtain ⟨inner, off, buf⟩ := s
  refine ⟨fun h => ?_, fun b rest h0 hin => ?_, fun h0 hin => ?_,
    fun c rest h0 hin => ?_⟩
  · unfold BitReader.read_bit
    rw [if_neg h]
  · subst h0; subst hin; rfl
  · subst h0; subst hin; rfl
  · subst h0; subst hin; rfl

/-- Witness for C5: an aligned big-endian reader on source byte `0x80`
reads a set first bit and consumes exactly that byte. -/
theorem claim_C5_witness :
    BitReader.read_bit .be ⟨[.byte 128], 0, 0⟩ = (.ok true, ⟨[], 1, 128⟩) := by
  have h := (claim_C5 .be ⟨[.byte 128], 0, 0⟩).2.1 128 [] rfl rfl
  exact h.trans (by decide)

/-- Claim C7: whenever a byte fetch during `read_bit` or `read_bits` fails,
the fill's error is propagated unchanged to the caller and the cursor state
(`bit_offset` and `bit_buffer`) is exactly what it was before the failing
call (the fetch happens before any cursor mutation). -/
theorem claim_C7 (e : Endian) (count : Nat) (s : BitReader) :
    (∀ er s1, BitReader.read_bit e s = (.err er, s1) →
      s1.bit_offset = s.bit_offset ∧ s1.bit_buffer = s.bit_buffer ∧
      s.bit_offset = 0 ∧ s.fill_buffer.1 = .err er) ∧
    (∀ er s1, BitReader.read_bits e count s = (.err er, s1) →
      s1.bit_offset = s.bit_offset ∧ s1.bit_buffer = s.bit_buffer ∧
      s.fill_buffer.1 = .err er) := by
  obtain ⟨inner, off, buf⟩ := s
  constructor
  · intro er s1 h
    by_cases h0 : off = 0
    · subst h0
      cases inner with
      | nil =>
          simp [BitReader.read_bit, BitReader.fill_buffer] at h
          obtain ⟨rfl, rfl⟩ := h
          exact ⟨rfl, rfl, rfl, rfl⟩
      | cons it rest =>
          cases it with
          | byte b =>
              simp [BitReader.read_bit, BitReader.fill_buffer] at h
          | ioerr c =>
              simp [BitReader.read_bit, BitReader.fill_buffer] at h
              obtain ⟨rfl, rfl⟩ := h
              exact ⟨rfl, rfl, rfl, rfl⟩
    · unfold BitReader.read_bit at h
      rw [if_neg h0] at h
      simp at h
  · intro er s1 h
    unfold BitReader.read_bits at h
    by_cases hc : count > 8
    · rw [if_pos hc] at h
      simp at h
    · rw [if_neg hc] at h
      by_cases h0 : off = 0
      · subst h0
        cases inner with
        | nil =>
            simp [BitReader.fill_buffer] at h
            obtain ⟨rfl, rfl⟩ := h
            exact ⟨rfl, rfl, rfl⟩
        | cons it rest =>
            cases it with
            | byte b =>
                simp [BitReader.fill_buffer, hc] at h
            | ioerr c =>
                simp [BitReader.fill_buffer] at h
                obtain ⟨rfl, rfl⟩ := h
                exact ⟨rfl, rfl, rfl⟩
      · rw [if_neg h0] at h
        dsimp only at h
        by_cases hcr : off + count > 8
        · rw [if_pos hcr] at h
          cases inner with
          | nil =>
              simp [BitReader.fill_buffer] at h
              obtain ⟨rfl, rfl⟩ := h
              exact ⟨rfl, rfl, rfl⟩
          | cons it rest =>
              cases it with
              | byte b =>
                  simp [BitReader.fill_buffer] at h
              | ioerr c =>
                  simp [BitReader.fill_buffer] at h
                  obtain ⟨rfl, rfl⟩ := h
                  exact ⟨rfl, rfl, rfl⟩
        · rw [if_neg hcr] at h
          simp at h

/-- Witness for C7: an aligned reader on an empty source propagates the EOF
of the failed fill and keeps its cursor fields. -/
theorem claim_C7_witness :
    (BitReader.new []).bit_offset = (BitReader.new []).bit_offset ∧
    (BitReader.new []).bit_buffer = (BitReader.new []).bit_buffer ∧
    (BitReader.new []).bit_offset = 0 ∧
    (BitReader.new []).fill_buffer.1 = .err .eof :=
  (claim_C7 .be 0 (BitReader.new [])).1 .eof (BitReader.new []) (by decide)

/-- Helper: `read_bit` keeps the offset below 8 on every path. -/
lemma read_bit_offset_lt (e : Endian) (s : BitReader) (h : s.bit_offset < 8) :
    (BitReader.read_bit e s).2.bit_offset < 8 := by
  obtain ⟨inner, off, buf⟩ := s
  by_cases h0 : off = 0
  · subst h0
    cases inner with
    | nil => simp [BitReader.read_bit, BitReader.fill_buffer]
    | cons it rest =>
        cases it with
        | byte b => simp [BitReader.read_bit, BitReader.fill_buffer]
        | ioerr c => simp [BitReader.read_bit, BitReader.fill_buffer]
  · unfold BitReader.read_bit
    rw [if_neg h0]
    show (off + 1) % 8 < 8
    exact Nat.mod_lt _ (by omega)

/-- Helper: `read_bits` keeps the offset below 8 on every path. -/
lemma read_bits_offset_lt (e : Endian) (count : Nat) (s : BitReader)
    (h : s.bit_offset < 8) : (BitReader.read_bits e count s).2.bit_offset < 8 := by
  obtain ⟨inner, off, buf⟩ := s
  unfold BitReader.read_bits
  by_cases hc : count > 8
  · rw [if_pos hc]
    simpa using h
  · rw [if_neg hc]
    by_cases h0 : off = 0
    · subst h0
      cases inner with
      | nil => simp [BitReader.fill_buffer]
      | cons it rest =>
          cases it with
          | byte b =>
              simp [BitReader.fill_buffer, hc]
              omega
          | ioerr c => simp [BitReader.fill_buffer]
    · rw [if_neg h0]
      dsimp only
      by_cases hcr : off + count > 8
      · rw [if_pos hcr]
        cases inner with
        | nil => simpa [BitReader.fill_buffer] using h
        | cons it rest =>
            cases it with
            | byte b =>
                simp [BitReader.fill_buffer]
                omega
            | ioerr c => simpa [BitReader.fill_buffer] using h
      · rw [if_neg hcr]
        show (off + count) % 8 < 8
        exact Nat.mod_lt _ (by omega)

/-- Claim C10: every operation (construction, `align`, `read_bit`,
`read_bits` with `count ≤ 8`, bulk read) preserves the documented invariant
`0 ≤ bit_offset < 8`, on success and on failure alike. -/
theorem claim_C10 (e : Endian) (count : Nat) (s : BitReader) (l : List SrcItem)
    (buf : List Nat) (h : s.WF) (_hc : count ≤ 8) :
    (BitReader.new l).WF ∧ s.align.WF ∧ (BitReader.read_bit e s).2.WF ∧
    (BitReader.read_bits e count s).2.WF ∧
    (BitReader.bulk_read e s buf).2.2.WF := by
  refine ⟨by show (0:Nat) < 8; decide, by show (0:Nat) < 8; decide,
    read_bit_offset_lt e s h,
    read_bits_offset_lt e count s h, ?_⟩
  show (BitReader.bulk_read e s buf).2.2.bit_offset < 8
  rw [bulk_read_bit_offset]
  exact h

/-- Witness for C10 at a concrete unaligned reader and `count = 8`. -/
theorem claim_C10_witness :
    ((⟨[], 3, 0⟩ : BitReader).WF ∧ 8 ≤ 8) ∧
    ((BitReader.new []).WF ∧ (⟨[], 3, 0⟩ : BitReader).align.WF ∧
     (BitReader.read_bit .be ⟨[], 3, 0⟩).2.WF ∧
     (BitReader.read_bits .be 8 ⟨[], 3, 0⟩).2.WF ∧
     (BitReader.bulk_read .be ⟨[], 3, 0⟩ []).2.2.WF) :=
  ⟨⟨by decide, by decide⟩, claim_C10 .be 8 ⟨[], 3, 0⟩ [] [] (by decide) (by decide)⟩

/-- Helper: the rewritten buffer produced by the shifting loop pairs each
byte with its predecessor (the initial `last` first). -/
lemma shift_fold_fst (e : Endian) (off : Nat) :
    ∀ (xs : List Nat) (last : Nat),
      (shift_fold e off last xs).1 =
        List.zipWith (fun p c => shift_msb e p off ||| shift_lsb e c (8 - off))
          (last :: xs) xs
  | [], _ => rfl
  | b :: rest, _ =>
      congrArg (List.cons _) (shift_fold_fst e off rest b)

/-- Helper: the shifting loop's final `last` is the last original byte of
the processed buffer (or the initial `last` when the buffer is empty). -/
lemma shift_fold_snd (e : Endian) (off : Nat) :
    ∀ (xs : List Nat) (last : Nat),
      (shift_fold e off last xs).2 = xs.getLastD last
  | [], _ => rfl
  | b :: rest, last => by
      rw [List.getLastD_cons]
      exact shift_fold_snd e off rest b

/-- Counterexample to C4 as stated: an unaligned big-endian reader with
`bit_buffer = 0xff` whose source yields zero bytes still rewrites the byte
of the caller's buffer beyond `count_read = 0` (from `0x00` to `0xfe`) and
replaces `bit_buffer` with `0x00`. -/
theorem claim_C4_cex :
    BitReader.bulk_read .be ⟨[], 1, 255⟩ [0] = (.ok 0, [254], ⟨[], 1, 0⟩) ∧
    (254 : Nat) ≠ 0 ∧ (0 : Nat) ≠ 255 := by
  decide

/-- Claim C4 (amended): for every unaligned reader whose underlying bulk
read succeeds with `bytes` (leaving source `rest`), the operation
post-processes the ENTIRE caller buffer — the `count_read` freshly read
bytes and the untouched tail alike — pairing each byte with its
predecessor, and stores the last original byte of the whole buffer (not of
the bytes actually read) into `bit_buffer`; `bit_buffer` is unchanged only
when the caller's buffer itself is empty. -/
theorem claim_C4 (e : Endian) (s : BitReader) (buf bytes : List Nat)
    (rest : List SrcItem) (hoff : s.bit_offset ≠ 0)
    (hread : inner_read buf.length s.inner = (.ok bytes, rest)) :
    BitReader.bulk_read e s buf =
      (.ok bytes.length,
       List.zipWith
         (fun p c => shift_msb e p s.bit_offset ||| shift_lsb e c (8 - s.bit_offset))
         (s.bit_buffer :: (bytes ++ buf.drop bytes.length))
         (bytes ++ buf.drop bytes.length),
       ⟨rest, s.bit_offset, (bytes ++ buf.drop bytes.length).getLastD s.bit_buffer⟩) := by
  unfold BitReader.bulk_read
  rw [hread]
  dsimp only
  rw [if_neg hoff]
  rcases hsf : shift_fold e s.bit_offset s.bit_buffer
      (bytes ++ buf.drop bytes.length) with ⟨p, l⟩
  have hp := shift_fold_fst e s.bit_offset (bytes ++ buf.drop bytes.length) s.bit_buffer
  have hl := shift_fold_snd e s.bit_offset (bytes ++ buf.drop bytes.length) s.bit_buffer
  rw [hsf] at hp hl
  dsimp only at hp hl
  rw [hp, hl]

/-- Witness for the amended C4: one byte read through an unaligned reader. -/
theorem claim_C4_witness :
    ((⟨[.byte 1], 1, 2⟩ : BitReader).bit_offset ≠ 0 ∧
      inner_read [(9:Nat)].length (⟨[.byte 1], 1, 2⟩ : BitReader).inner =
        (.ok [1], [])) ∧
    BitReader.bulk_read .be ⟨[.byte 1], 1, 2⟩ [9] = (.ok 1, [4], ⟨[], 1, 1⟩) := by
  refine ⟨⟨by decide, by decide⟩, ?_⟩
  have h := claim_C4 .be ⟨[.byte 1], 1, 2⟩ [9] [1] [] (by decide) (by decide)
  exact h.trans (by decide)

set_option maxRecDepth 8000

/-- Helper: from an aligned state whose source starts with byte `b`, eight
`read_bit` calls succeed, consume exactly that byte, return its bits in
convention order, and return the reader to an aligned state. -/
lemma read8_aligned (e : Endian) (b : Nat) (rest : List SrcItem) (buf : Nat) :
    read_n_bits e 8 ⟨.byte b :: rest, 0, buf⟩ =
      (.ok (bitsOf e b), ⟨rest, 0, b⟩) := by
  cases e with
  | be =>
      have h : read_n_bits .be 8 ⟨.byte b :: rest, 0, buf⟩ =
          (.ok (bitsOf .be b), ⟨rest, 8 % 8, b⟩) := rfl
      exact h.trans (by simp)
  | le =>
      have h : read_n_bits .le 8 ⟨.byte b :: rest, 0, buf⟩ =
          (.ok (bitsOf .le b), ⟨rest, 8 % 8, b⟩) := rfl
      exact h.trans (by simp)

/-- Helper: reassembling the eight bits `read_bit` yields from a byte
recovers the byte, for either convention. -/
lemma assemble_byte_bitsOf (e : Endian) (b : Nat) (hb : b < 256) :
    assemble_byte e (bitsOf e b) = b := by
  cases e <;> revert b hb <;> decide

/-- Helper: `assemble` consumes exactly eight bits per output byte. -/
lemma assemble_append8 (e : Endian) (b : Nat) (bs : List Bool) :
    assemble e (bitsOf e b ++ bs) = assemble_byte e (bitsOf e b) :: assemble e bs :=
  rfl

/-- Helper: successful bit-read runs compose. -/
lemma read_n_bits_append (e : Endian) :
    ∀ (m n : Nat) (s : BitReader) (bs : List Bool) (s1 : BitReader)
      (cs : List Bool) (s2 : BitReader),
      read_n_bits e m s = (.ok bs, s1) → read_n_bits e n s1 = (.ok cs, s2) →
      read_n_bits e (m + n) s = (.ok (bs ++ cs), s2) := by
  intro m
  induction m with
  | zero =>
      intro n s bs s1 cs s2 h1 h2
      simp only [read_n_bits, Prod.mk.injEq, PResult.ok.injEq] at h1
      obtain ⟨rfl, rfl⟩ := h1
      rw [Nat.zero_add, List.nil_append]
      exact h2
  | succ m ih =>
      intro n s bs s1 cs s2 h1 h2
      rcases hb : BitReader.read_bit e s with ⟨r, t⟩
      unfold read_n_bits at h1
      rw [hb] at h1
      cases r with
      | ok v =>
          dsimp only at h1
          rcases hm : read_n_bits e m t with ⟨r2, t2⟩
          rw [hm] at h1
          cases r2 with
          | ok vs =>
              dsimp only at h1
              simp only [Prod.mk.injEq, PResult.ok.injEq] at h1
              obtain ⟨rfl, rfl⟩ := h1
              have hrec := ih n t vs t2 cs s2 hm h2
              have hidx : m + 1 + n = (m + n) + 1 := by omega
              rw [hidx]
              unfold read_n_bits
              rw [hb]
              dsimp only
              rw [hrec]
              rfl
          | err er => simp at h1
          | panic => simp at h1
      | err er => simp at h1
      | panic => simp at h1

/-- Helper: reading a mapped byte list bit by bit from an aligned state
yields exactly the bits that reassemble to the original list, ending
aligned with the trailing source intact. -/
lemma read_all_aux (e : Endian) :
    ∀ (B : List Nat), (∀ b ∈ B, b < 256) →
      ∀ (rest : List SrcItem) (buf : Nat),
      ∃ bits buf2,
        read_n_bits e (8 * B.length) ⟨List.map SrcItem.byte B ++ rest, 0, buf⟩ =
          (.ok bits, ⟨rest, 0, buf2⟩) ∧ assemble e bits = B := by
  intro B
  induction B with
  | nil =>
      intro _ rest buf
      exact ⟨[], buf, rfl, rfl⟩
  | cons b B ih =>
      intro h rest buf
      obtain ⟨bits, buf2, hrun, hasm⟩ :=
        ih (fun x hx => h x (List.mem_cons_of_mem _ hx)) rest b
      refine ⟨bitsOf e b ++ bits, buf2, ?_, ?_⟩
      · have h8 := read8_aligned e b (List.map SrcItem.byte B ++ rest) buf
        have hcomp := read_n_bits_append e 8 (8 * B.length) _ _ _ _ _ h8 hrun
        have hlen : 8 * (b :: B).length = 8 + 8 * B.length := by
          rw [List.length_cons]; ring
        rw [hlen]
        exact hcomp
      · rw [assemble_append8, hasm,
          assemble_byte_bitsOf e b (h b (List.mem_cons_self b B))]

/-- Claim C1: for every byte sequence `B` and both endianness conventions,
reading `B` one bit at a time with `8 × |B|` `read_bit` calls succeeds, and
reassembling the returned bits in the same order under the same convention
reproduces `B` exactly. -/
theorem claim_C1 (e : Endian) (B : List Nat) (h : ∀ b ∈ B, b < 256) :
    ∃ bits s2,
      read_n_bits e (8 * B.length) (BitReader.new (List.map SrcItem.byte B)) =
        (.ok bits, s2) ∧ assemble e bits = B := by
  obtain ⟨bits, buf2, hrun, hasm⟩ := read_all_aux e B h [] 0
  refine ⟨bits, ⟨[], 0, buf2⟩, ?_, hasm⟩
  rw [List.append_nil] at hrun
  exact hrun

/-- Witness for C1 on the two-byte sequence `0xab 0xcd` in big-endian. -/
theorem claim_C1_witness :
    (∀ b ∈ [(171:Nat), 205], b < 256) ∧
    ∃ bits s2,
      read_n_bits .be (8 * [(171:Nat), 205].length)
          (BitReader.new (List.map SrcItem.byte [171, 205])) =
        (.ok bits, s2) ∧ assemble .be bits = [171, 205] :=
  ⟨by decide, claim_C1 .be [171, 205] (by decide)⟩
